import Mathlib

/-!
# Shallow embedding of `Draft/PythonLibraries/transforms.py`

Quaternion algebra, axis-angle conversions and pose/projection algebra,
translated function by function from the Python source.  Machine floats are
modelled by exact reals; numpy arrays of fixed shape by structures over ℝ and
by `Matrix (Fin n) (Fin m) ℝ`.
-/

noncomputable section

open Real

/-- A 3-element real vector (numpy shape (3,1) arrays: `rvec`, `t`, points). -/
structure Vec3 where
  x : ℝ
  y : ℝ
  z : ℝ

/-- A quaternion stored as (x, y, z, w), w the scalar part, as in the source. -/
structure Quat where
  x : ℝ
  y : ℝ
  z : ℝ
  w : ℝ

/-- Componentwise negation of a quaternion (used to state equality up to sign). -/
def qneg (q : Quat) : Quat := ⟨-q.x, -q.y, -q.z, -q.w⟩

/-- `(qwt**2).sum()` of the source: the squared euclidean norm of a quaternion. -/
def sumSq (q : Quat) : ℝ := q.x ^ 2 + q.y ^ 2 + q.z ^ 2 + q.w ^ 2

/-- `LA.norm` on a 4-vector. -/
def norm4 (q : Quat) : ℝ := Real.sqrt (sumSq q)

/-- `LA.norm` on a 3-vector. -/
def norm3 (v : Vec3) : ℝ := Real.sqrt (v.x ^ 2 + v.y ^ 2 + v.z ^ 2)

/-- `np.sign`: 1 for positive, -1 for negative, 0 for zero. -/
def np_sign (x : ℝ) : ℝ := if x < 0 then -1 else if 0 < x then 1 else 0

/-- `mult_quat(q2, q1)`: quaternion product, component formulas verbatim from
the source (accumulating rotation `q2` onto `q1`). -/
def mult_quat (q2 q1 : Quat) : Quat :=
  ⟨ q1.x * q2.w + q1.w * q2.x + q1.y * q2.z - q1.z * q2.y,
    q1.w * q2.y - q1.x * q2.z + q1.y * q2.w + q1.z * q2.x,
    q1.w * q2.z + q1.x * q2.y - q1.y * q2.x + q1.z * q2.w,
    q1.w * q2.w - q1.x * q2.x - q1.y * q2.y - q1.z * q2.z ⟩

/-- `inv_quat(qwt)`: negate the vector part of a copy, divide by the squared
norm of the original quaternion. -/
def inv_quat (q : Quat) : Quat :=
  ⟨ -q.x / sumSq q, -q.y / sumSq q, -q.z / sumSq q, q.w / sumSq q ⟩

/-- `delta_quat(q2, q1) = mult_quat(q2, inv_quat(q1))`. -/
def delta_quat (q2 q1 : Quat) : Quat := mult_quat q2 (inv_quat q1)

/-- `quat_from_rvec(rvec)`: axis-angle to quaternion; exact-zero branch
returns the identity quaternion. -/
def quat_from_rvec (r : Vec3) : Quat :=
  let angle := norm3 r
  if 0 < angle then
    ⟨ r.x * Real.sin (angle / 2) / angle,
      r.y * Real.sin (angle / 2) / angle,
      r.z * Real.sin (angle / 2) / angle,
      Real.cos (angle / 2) ⟩
  else
    ⟨0, 0, 0, 1⟩

/-- `rvec_from_quat(qwt)` with its frame effect made explicit: the second
component of the result is the value of the caller's array `qwt` after the
call (the source divides `qwt` in place by its norm when `qwt[3] > 1`). -/
def rvec_from_quat_full (qwt : Quat) : Vec3 × Quat :=
  let q : Quat := if 1 < qwt.w then
      ⟨qwt.x / norm4 qwt, qwt.y / norm4 qwt, qwt.z / norm4 qwt, qwt.w / norm4 qwt⟩
    else qwt
  let angle := 2 * Real.arccos q.w
  let s := Real.sqrt (1 - q.w ^ 2)
  let rvec : Vec3 := if s < 0.001 then ⟨1, 0, 0⟩ else ⟨q.x / s, q.y / s, q.z / s⟩
  (⟨rvec.x * angle, rvec.y * angle, rvec.z * angle⟩, q)

/-- The return value of `rvec_from_quat`. -/
def rvec_from_quat (qwt : Quat) : Vec3 := (rvec_from_quat_full qwt).1

/-- `rvec[abs(rvec).argmax()]`: the component of largest magnitude, numpy's
`argmax` taking the first index attaining the maximum. -/
def dominant (v : Vec3) : ℝ :=
  if |v.y| ≤ |v.x| ∧ |v.z| ≤ |v.x| then v.x
  else if |v.z| ≤ |v.y| then v.y
  else v.z

/-- `axis_and_angle_from_rvec(rvec)`: signed axis (dominant component forced
positive) and matching angle, wrapped once by 2π when `|angle| > pi`. -/
def axis_and_angle_from_rvec (r : Vec3) : Vec3 × ℝ :=
  let angle := norm3 r
  let sign := np_sign (dominant r)
  let axis : Vec3 := ⟨sign * r.x / angle, sign * r.y / angle, sign * r.z / angle⟩
  let angle1 := angle * sign
  (axis, if Real.pi < |angle1| then angle1 - np_sign angle1 * (2 * Real.pi) else angle1)

/-- `delta_rvec(r2, r1)`: difference of rotations through quaternions. -/
def delta_rvec (r2 r1 : Vec3) : Vec3 :=
  rvec_from_quat (delta_quat (quat_from_rvec r2) (quat_from_rvec r1))

/-- 3×3 real matrices (`R`, `K`). -/
abbrev Mat3 := Matrix (Fin 3) (Fin 3) ℝ

/-- 4×4 real matrices (`P`). -/
abbrev Mat4 := Matrix (Fin 4) (Fin 4) ℝ

/-- `P_from_R_and_t(R, t)`: start from `np.eye(4)`, overwrite the top-left
3×3 block with `R` and the top-right 3×1 block with `t`. -/
def P_from_R_and_t (R : Mat3) (t : Fin 3 → ℝ) : Mat4 :=
  Matrix.of fun i j =>
    if hi : (i : ℕ) < 3 then
      if hj : (j : ℕ) < 3 then R ⟨i, hi⟩ ⟨j, hj⟩ else t ⟨i, hi⟩
    else
      if (i : ℕ) = (j : ℕ) then 1 else 0

/-- `P[0:3, 0:3]`: the top-left 3×3 block of a 4×4 matrix. -/
def upperLeft (P : Mat4) : Mat3 :=
  Matrix.of fun i j => P i.castSucc j.castSucc

/-- `P_inv(P)`: invert the rotation block with `LA.inv`, set
`t = -R.dot(P[0:3, 3:4])`, reassemble with `P_from_R_and_t`. -/
def P_inv (P : Mat4) : Mat4 :=
  let R := (upperLeft P)⁻¹
  let t := fun i => -(∑ j : Fin 3, R i j * P j.castSucc 3)
  P_from_R_and_t R t

/-- Modelled external dependency: `cv2.solve(A, B, X, cv2.DECOMP_SVD)`, the
least-squares solver for `A·X = B`.  Embedded as the exact solution `A⁻¹·B`,
with which the SVD least-squares solution coincides whenever `A` is
invertible (the regime of all claims about it). -/
def cv2_solve_svd (A B : Mat4) : Mat4 := A⁻¹ * B

/-- `delta_P(P2, P1)`: solve `P1.T · X = P2.T`, transpose back, then force the
bottom row to exactly (0, 0, 0, 1). -/
def delta_P (P2 P1 : Mat4) : Mat4 :=
  Matrix.updateRow (cv2_solve_svd P1.transpose P2.transpose).transpose 3 ![0, 0, 0, 1]

/-- Homogenization of a 3D point: `points_nrm` row `(x, y, z, 1)`. -/
def homog (p : Vec3) : Fin 4 → ℝ := ![p.x, p.y, p.z, 1]

/-- One row of `points_nrm .dot (P[0:3,:].T) .dot (K.T)`: the projected
3-vector `K · (P[0:3,:] · homog p)` of a single point. -/
def proj_vec (P : Mat4) (K : Mat3) (p : Vec3) : Fin 3 → ℝ :=
  fun i => ∑ j : Fin 3, K i j * (∑ k : Fin 4, P j.castSucc k * homog p k)

/-- `np.rint` followed by `.astype(int)`: round to nearest, ties to even. -/
def np_rint (x : ℝ) : ℤ :=
  if Int.fract x < 1 / 2 then ⌊x⌋
  else if 1 / 2 < Int.fract x then ⌊x⌋ + 1
  else if ⌊x⌋ % 2 = 0 then ⌊x⌋ else ⌊x⌋ + 1

/-- `project_points(points, P, K)`: integer pixel coordinates (x and y divided
by the third projected coordinate, then rounded) and the per-point flag
`points_proj[:, 2] > 0`, the third coordinate being read after the in-place
divide that only touches columns 0 and 1. -/
def project_points (points : List Vec3) (P : Mat4) (K : Mat3) :
    List (ℤ × ℤ) × List Bool :=
  ( points.map fun p =>
      ( np_rint (proj_vec P K p 0 / proj_vec P K p 2),
        np_rint (proj_vec P K p 1 / proj_vec P K p 2) ),
    points.map fun p => decide (0 < proj_vec P K p 2) )

/-- `projection_depth(points, P)`: third row of `P` applied to each
homogenized point. -/
def projection_depth (points : List Vec3) (P : Mat4) : List ℝ :=
  points.map fun p => ∑ k : Fin 4, P 2 k * homog p k

/-! ## Helper lemmas -/

lemma norm3_nonneg (v : Vec3) : 0 ≤ norm3 v := Real.sqrt_nonneg _

lemma norm3_eq_zero_iff (v : Vec3) : norm3 v = 0 ↔ v = ⟨0, 0, 0⟩ := by
  obtain ⟨x, y, z⟩ := v
  rw [norm3, Real.sqrt_eq_zero (by positivity)]
  simp only [Quat.mk.injEq, Vec3.mk.injEq]
  constructor
  · intro h
    refine ⟨?_, ?_, ?_⟩ <;> nlinarith [sq_nonneg x, sq_nonneg y, sq_nonneg z]
  · rintro ⟨rfl, rfl, rfl⟩; ring

lemma norm3_pos (v : Vec3) (h : v ≠ ⟨0, 0, 0⟩) : 0 < norm3 v :=
  lt_of_le_of_ne (norm3_nonneg v) fun h0 => h ((norm3_eq_zero_iff v).mp h0.symm)

lemma dominant_ne_zero (v : Vec3) (h : v ≠ ⟨0, 0, 0⟩) : dominant v ≠ 0 := by
  obtain ⟨x, y, z⟩ := v
  simp only [ne_eq, Vec3.mk.injEq, not_and] at h
  unfold dominant
  split_ifs with h1 h2 <;> intro h0
  · subst h0
    simp only [abs_zero, abs_nonpos_iff] at h1
    exact h rfl h1.1 h1.2
  · subst h0
    simp only [abs_zero, abs_nonpos_iff] at h2
    exact h1 ⟨by simp [h2], by simp [h2]⟩
  · subst h0
    push_neg at h2
    simp only [abs_zero] at h2
    exact absurd h2 (not_lt.mpr (abs_nonneg y))

lemma np_sign_cases (x : ℝ) (h : x ≠ 0) : np_sign x = 1 ∨ np_sign x = -1 := by
  unfold np_sign
  rcases lt_trichotomy x 0 with hx | hx | hx
  · right; simp [hx]
  · exact absurd hx h
  · left; simp [hx, not_lt.mpr (le_of_lt hx)]

lemma np_sign_mul_self (x : ℝ) : np_sign x * x = |x| := by
  unfold np_sign
  rcases lt_trichotomy x 0 with hx | hx | hx
  · simp [hx, abs_of_neg hx]
  · simp [hx]
  · simp [hx, not_lt.mpr (le_of_lt hx), abs_of_pos hx]

lemma np_sign_sq (x : ℝ) (h : x ≠ 0) : np_sign x ^ 2 = 1 := by
  rcases np_sign_cases x h with hs | hs <;> rw [hs] <;> norm_num

lemma sq_norm3 (v : Vec3) : norm3 v ^ 2 = v.x ^ 2 + v.y ^ 2 + v.z ^ 2 :=
  Real.sq_sqrt (by positivity)

lemma norm3_mk (a b c : ℝ) : norm3 ⟨a, b, c⟩ = Real.sqrt (a ^ 2 + b ^ 2 + c ^ 2) := rfl

/-- The axis computed by `axis_and_angle_from_rvec` is a unit vector whenever
the input is nonzero. -/
lemma norm3_axis_eq_one (r : Vec3) (h : r ≠ ⟨0, 0, 0⟩) :
    norm3 (axis_and_angle_from_rvec r).1 = 1 := by
  have hn : norm3 r ≠ 0 := ne_of_gt (norm3_pos r h)
  have hσ : np_sign (dominant r) ^ 2 = 1 := np_sign_sq _ (dominant_ne_zero r h)
  have hn2 : norm3 r ^ 2 = r.x ^ 2 + r.y ^ 2 + r.z ^ 2 := sq_norm3 r
  simp only [axis_and_angle_from_rvec]
  rw [norm3_mk]
  rw [show (np_sign (dominant r) * r.x / norm3 r) ^ 2 +
        (np_sign (dominant r) * r.y / norm3 r) ^ 2 +
        (np_sign (dominant r) * r.z / norm3 r) ^ 2 = 1 by
      field_simp
      linear_combination (r.x ^ 2 + r.y ^ 2 + r.z ^ 2) * hσ - hn2]
  exact Real.sqrt_one

/-! ## C7: quaternion inversion -/

/-- C7: for every nonzero quaternion `q`, `inv_quat q` is the conjugate of `q`
divided by the squared norm of the original `q` (hence the plain conjugate for
a unit quaternion), and the divisor `sumSq q` vanishes exactly on the zero
quaternion, which the caller must rule out. -/
theorem inv_quat_spec (q : Quat) :
    (sumSq q = 0 ↔ q = ⟨0, 0, 0, 0⟩) ∧
    (q ≠ ⟨0, 0, 0, 0⟩ →
      sumSq q ≠ 0 ∧
      inv_quat q = ⟨-q.x / sumSq q, -q.y / sumSq q, -q.z / sumSq q, q.w / sumSq q⟩) ∧
    (sumSq q = 1 → inv_quat q = ⟨-q.x, -q.y, -q.z, q.w⟩) := by
  obtain ⟨x, y, z, w⟩ := q
  have hiff : sumSq ⟨x, y, z, w⟩ = 0 ↔ (⟨x, y, z, w⟩ : Quat) = ⟨0, 0, 0, 0⟩ := by
    simp only [sumSq, Quat.mk.injEq]
    constructor
    · intro h
      refine ⟨?_, ?_, ?_, ?_⟩ <;>
        nlinarith [sq_nonneg x, sq_nonneg y, sq_nonneg z, sq_nonneg w]
    · rintro ⟨rfl, rfl, rfl, rfl⟩; ring
  refine ⟨hiff, fun hne => ⟨fun h0 => hne (hiff.mp h0), rfl⟩, fun h1 => ?_⟩
  simp [inv_quat, h1]

/-- Witness for C7 at the concrete nonzero quaternion (1, 0, 0, 1). -/
theorem inv_quat_spec_witness :
    ((⟨1, 0, 0, 1⟩ : Quat) ≠ ⟨0, 0, 0, 0⟩) ∧
    inv_quat ⟨1, 0, 0, 1⟩ = ⟨-(1 / 2), 0, 0, 1 / 2⟩ := by
  have hne : (⟨1, 0, 0, 1⟩ : Quat) ≠ ⟨0, 0, 0, 0⟩ := by
    simp [Quat.mk.injEq]
  refine ⟨hne, ?_⟩
  rw [((inv_quat_spec ⟨1, 0, 0, 1⟩).2.1 hne).2]
  simp only [sumSq, Quat.mk.injEq]
  norm_num

/-! ## C2: rvec_from_quat mutates its argument when w > 1 -/

/-- C2 is violated by the code: on the quaternion (0, 0, 0, 2), whose w
component exceeds 1, `rvec_from_quat` divides the caller's array in place by
its norm, so after the call the argument reads (0, 0, 0, 1), not the original
value. -/
theorem rvec_from_quat_mutates_argument :
    (rvec_from_quat_full ⟨0, 0, 0, 2⟩).2 = ⟨0, 0, 0, 1⟩ ∧
    ((⟨0, 0, 0, 1⟩ : Quat) ≠ ⟨0, 0, 0, 2⟩) := by
  have hn : norm4 ⟨0, 0, 0, 2⟩ = 2 := by
    rw [norm4, show sumSq ⟨0, 0, 0, 2⟩ = 2 ^ 2 by norm_num [sumSq]]
    exact Real.sqrt_sq (by norm_num)
  constructor
  · simp only [rvec_from_quat_full, hn]
    norm_num
  · simp [Quat.mk.injEq]

/-! ## C9: axis_and_angle_from_rvec has no zero guard -/

/-- C9: on the zero vector, the divisor `norm3 rvec` and the dominant-component
sign are both zero and the computed axis degenerates to the zero vector (not a
unit axis), whereas `quat_from_rvec` guards exact zero by returning the
identity quaternion; on every nonzero input the divisor is nonzero and the
axis is a genuine unit vector. -/
theorem axis_and_angle_zero_unguarded :
    (norm3 ⟨0, 0, 0⟩ = 0 ∧ np_sign (dominant ⟨0, 0, 0⟩) = 0 ∧
      (axis_and_angle_from_rvec ⟨0, 0, 0⟩).1 = ⟨0, 0, 0⟩ ∧
      quat_from_rvec ⟨0, 0, 0⟩ = ⟨0, 0, 0, 1⟩) ∧
    (∀ r : Vec3, r ≠ ⟨0, 0, 0⟩ →
      norm3 r ≠ 0 ∧ norm3 (axis_and_angle_from_rvec r).1 = 1) := by
  have h0 : norm3 ⟨0, 0, 0⟩ = 0 := by
    rw [norm3_mk]
    norm_num
  refine ⟨⟨h0, ?_, ?_, ?_⟩, fun r hr => ⟨ne_of_gt (norm3_pos r hr), norm3_axis_eq_one r hr⟩⟩
  · simp [dominant, np_sign]
  · simp [axis_and_angle_from_rvec]
  · simp [quat_from_rvec, h0]

/-- Witness for C9 on the concrete nonzero input (1, 0, 0). -/
theorem axis_and_angle_zero_unguarded_witness :
    ((⟨1, 0, 0⟩ : Vec3) ≠ ⟨0, 0, 0⟩) ∧
    norm3 (axis_and_angle_from_rvec ⟨1, 0, 0⟩).1 = 1 := by
  have hne : (⟨1, 0, 0⟩ : Vec3) ≠ ⟨0, 0, 0⟩ := by
    simp [Vec3.mk.injEq]
  exact ⟨hne, (axis_and_angle_zero_unguarded.2 ⟨1, 0, 0⟩ hne).2⟩

/-! ## C4: bottom rows of derived poses -/

/-- C4: `P_from_R_and_t`, `P_inv` (on an invertible rotation block) and
`delta_P` all produce a matrix whose bottom row is exactly (0, 0, 0, 1). -/
theorem bottom_row_invariant :
    (∀ (R : Mat3) (t : Fin 3 → ℝ), P_from_R_and_t R t 3 = ![0, 0, 0, 1]) ∧
    (∀ P : Mat4, IsUnit (upperLeft P).det → P_inv P 3 = ![0, 0, 0, 1]) ∧
    (∀ P1 P2 : Mat4, delta_P P2 P1 3 = ![0, 0, 0, 1]) := by
  have h1 : ∀ (R : Mat3) (t : Fin 3 → ℝ), P_from_R_and_t R t 3 = ![0, 0, 0, 1] := by
    intro R t
    funext j
    fin_cases j <;> rfl
  refine ⟨h1, fun P _ => ?_, fun P1 P2 => ?_⟩
  · show P_from_R_and_t (upperLeft P)⁻¹
      (fun i => -(∑ j : Fin 3, (upperLeft P)⁻¹ i j * P j.castSucc 3)) 3 = ![0, 0, 0, 1]
    exact h1 _ _
  · show Matrix.updateRow _ 3 ![0, 0, 0, 1] 3 = ![0, 0, 0, 1]
    exact Matrix.updateRow_self

/-- Witness for C4 at the identity pose, whose rotation block is invertible. -/
theorem bottom_row_invariant_witness :
    IsUnit (upperLeft (1 : Mat4)).det ∧ P_inv (1 : Mat4) 3 = ![0, 0, 0, 1] := by
  have h : upperLeft (1 : Mat4) = (1 : Mat3) := by
    ext i j
    simp [upperLeft, Matrix.one_apply, Fin.castSucc_inj]
  have hu : IsUnit (upperLeft (1 : Mat4)).det := by
    rw [h, Matrix.det_one]
    exact isUnit_one
  exact ⟨hu, bottom_row_invariant.2.1 1 hu⟩

/-! ## C8 and C10: point projection -/

/-- With the identity pose and an intrinsics matrix whose third row is
(0, 0, 1), the pre-divide third projected coordinate is the camera-space Z. -/
lemma proj_vec_two (K : Mat3) (h0 : K 2 0 = 0) (h1 : K 2 1 = 0) (h2 : K 2 2 = 1)
    (p : Vec3) : proj_vec 1 K p 2 = p.z := by
  have c0 : (0 : Fin 3).castSucc = (0 : Fin 4) := rfl
  have c1 : (1 : Fin 3).castSucc = (1 : Fin 4) := rfl
  have c2 : (2 : Fin 3).castSucc = (2 : Fin 4) := rfl
  simp only [proj_vec, homog, Fin.sum_univ_three, Fin.sum_univ_four, c0, c1, c2,
    Matrix.one_apply, h0, h1, h2]
  norm_num [Fin.ext_iff]
  all_goals decide

/-- C8: the per-point flag of `project_points` is exactly the test that the
point's pre-perspective-divide third coordinate is strictly positive, and with
identity pose and intrinsics whose third row is (0, 0, 1) that coordinate is
the camera-space Z of the point. -/
theorem project_points_flag_spec (points : List Vec3) (P : Mat4) (K : Mat3) :
    (project_points points P K).2 =
      points.map (fun p => decide (0 < proj_vec P K p 2)) ∧
    (P = 1 → K 2 0 = 0 → K 2 1 = 0 → K 2 2 = 1 →
      ∀ p : Vec3, proj_vec P K p 2 = p.z) := by
  refine ⟨rfl, fun hP h0 h1 h2 p => ?_⟩
  subst hP
  exact proj_vec_two K h0 h1 h2 p

/-- Witness for C8: identity pose and intrinsics, points (0,0,5) and
(0,0,-5) get flags true and false. -/
theorem project_points_flag_witness :
    (project_points [⟨0, 0, 5⟩, ⟨0, 0, -5⟩] 1 1).2 = [true, false] := by
  obtain ⟨hmap, hz⟩ := project_points_flag_spec [⟨0, 0, 5⟩, ⟨0, 0, -5⟩] 1 1
  have hzz := hz rfl (Matrix.one_apply_ne (by decide)) (Matrix.one_apply_ne (by decide))
    (Matrix.one_apply_eq 2)
  rw [hmap]
  simp only [List.map, hzz]
  norm_num

/-- C10: for every input, the pixel coordinates of `project_points` are
obtained by dividing the first two projected coordinates by the third with no
guard, and the third coordinate can be zero: the point (1, 2, 0) under
identity pose and intrinsics has third coordinate 0 and first coordinate 1,
so its pixel output is a division by zero.  The outputs are well defined only
when every point's third projected coordinate is nonzero. -/
theorem project_points_unguarded_divide (points : List Vec3) (P : Mat4) (K : Mat3) :
    (project_points points P K).1 =
      points.map (fun p =>
        ( np_rint (proj_vec P K p 0 / proj_vec P K p 2),
          np_rint (proj_vec P K p 1 / proj_vec P K p 2) )) ∧
    proj_vec 1 1 ⟨1, 2, 0⟩ 2 = 0 ∧ proj_vec 1 1 ⟨1, 2, 0⟩ 0 = 1 := by
  refine ⟨rfl, ?_, ?_⟩
  · rw [proj_vec_two 1 (Matrix.one_apply_ne (by decide)) (Matrix.one_apply_ne (by decide))
      (Matrix.one_apply_eq 2)]
  · have c0 : (0 : Fin 3).castSucc = (0 : Fin 4) := rfl
    have c1 : (1 : Fin 3).castSucc = (1 : Fin 4) := rfl
    have c2 : (2 : Fin 3).castSucc = (2 : Fin 4) := rfl
    simp only [proj_vec, homog, Fin.sum_univ_three, Fin.sum_univ_four, c0, c1, c2,
      Matrix.one_apply]
    norm_num [Fin.ext_iff]
    all_goals decide

/-! ## C1: delta_P solves on the right, not on the left -/

/-- A concrete homogeneous pose: translation by 1 along x. -/
def exP1 : Mat4 := !![1, 0, 0, 1; 0, 1, 0, 0; 0, 0, 1, 0; 0, 0, 0, 1]

/-- A concrete invertible homogeneous matrix: swap of x and y. -/
def exP2 : Mat4 := !![0, 1, 0, 0; 1, 0, 0, 0; 0, 0, 1, 0; 0, 0, 0, 1]

/-- The inverse of `exP1.transpose`. -/
def exP1Ti : Mat4 := !![1, 0, 0, 0; 0, 1, 0, 0; 0, 0, 1, 0; -1, 0, 0, 1]

lemma one4_lit : (1 : Mat4) = !![1, 0, 0, 0; 0, 1, 0, 0; 0, 0, 1, 0; 0, 0, 0, 1] := by
  ext i j
  fin_cases i <;> fin_cases j <;> rfl

lemma exP1_transpose :
    exP1.transpose = !![1, 0, 0, 0; 0, 1, 0, 0; 0, 0, 1, 0; 1, 0, 0, 1] := by
  ext i j
  fin_cases i <;> fin_cases j <;> rfl

lemma exP2_transpose : exP2.transpose = exP2 := by
  ext i j
  fin_cases i <;> fin_cases j <;> rfl

lemma exP1T_mul_inv : exP1.transpose * exP1Ti = 1 := by
  rw [exP1_transpose, one4_lit]
  ext i j
  fin_cases i <;> fin_cases j <;>
    simp [exP1Ti, Matrix.mul_apply, Fin.sum_univ_four, Matrix.vecHead, Matrix.vecTail]

lemma exP1T_inv : exP1.transpose⁻¹ = exP1Ti := Matrix.inv_eq_right_inv exP1T_mul_inv

lemma solve_ex : cv2_solve_svd exP1.transpose exP2.transpose =
    !![0, 1, 0, 0; 1, 0, 0, 0; 0, 0, 1, 0; 0, -1, 0, 1] := by
  rw [cv2_solve_svd, exP1T_inv, exP2_transpose]
  ext i j
  fin_cases i <;> fin_cases j <;>
    simp [exP1Ti, exP2, Matrix.mul_apply, Fin.sum_univ_four, Matrix.vecHead, Matrix.vecTail]

lemma delta_P_ex : delta_P exP2 exP1 =
    !![0, 1, 0, 0; 1, 0, 0, -1; 0, 0, 1, 0; 0, 0, 0, 1] := by
  rw [delta_P, solve_ex]
  ext i j
  fin_cases i <;> fin_cases j <;>
    simp +decide [Matrix.updateRow_apply, Matrix.transpose_apply, Matrix.vecHead,
      Matrix.vecTail]

/-- C1 as stated is false: `delta_P` returns `P2 · P1⁻¹` (it solves
`P1ᵀ · X = P2ᵀ` with the unknown on the right), so left-composing, as the
claim asserts, does not reproduce `P2`: with `P1` the translation by 1 along x
and `P2` the x-y swap, both homogeneous and invertible,
`P1 · delta_P(P2, P1) ≠ P2`. -/
theorem delta_P_claim_counterexample :
    IsUnit exP1.det ∧ exP1 3 = ![0, 0, 0, 1] ∧ exP2 3 = ![0, 0, 0, 1] ∧
    exP1 * delta_P exP2 exP1 ≠ exP2 := by
  have hdet : IsUnit exP1.det := by
    apply Matrix.isUnit_det_of_right_inverse
      (B := !![1, 0, 0, -1; 0, 1, 0, 0; 0, 0, 1, 0; 0, 0, 0, 1])
    rw [one4_lit]
    ext i j
    fin_cases i <;> fin_cases j <;>
      simp [exP1, Matrix.mul_apply, Fin.sum_univ_four, Matrix.vecHead, Matrix.vecTail]
  have hL : (exP1 * delta_P exP2 exP1) 0 3 = 1 := by
    rw [delta_P_ex]
    simp [exP1, Matrix.mul_apply, Fin.sum_univ_four, Matrix.vecHead, Matrix.vecTail]
  have hR : exP2 0 3 = 0 := rfl
  refine ⟨hdet, ?_, ?_, ?_⟩
  · funext j
    fin_cases j <;> rfl
  · funext j
    fin_cases j <;> rfl
  · intro hEq
    rw [hEq, hR] at hL
    norm_num at hL

/-- C1 amended: `delta_P(P2, P1)` is the transpose of the exact solution `X`
of `P1ᵀ · X = P2ᵀ` (the system the code hands to the solver), with the bottom
row then forced to (0, 0, 0, 1); equivalently, for invertible homogeneous
`P1` and homogeneous `P2`, `delta_P(P2, P1) · P1 = P2` (right composition,
not left). -/
theorem delta_P_amended (P1 P2 : Mat4) (hdet : IsUnit P1.det)
    (h1 : P1 3 = ![0, 0, 0, 1]) (h2 : P2 3 = ![0, 0, 0, 1]) :
    P1.transpose * cv2_solve_svd P1.transpose P2.transpose = P2.transpose ∧
    delta_P P2 P1 * P1 = P2 := by
  have hdetT : IsUnit P1.transpose.det := by
    rwa [Matrix.det_transpose]
  constructor
  · rw [cv2_solve_svd, ← Matrix.mul_assoc, Matrix.mul_nonsing_inv _ hdetT,
      Matrix.one_mul]
  · have hX : (cv2_solve_svd P1.transpose P2.transpose).transpose = P2 * P1⁻¹ := by
      rw [cv2_solve_svd, Matrix.transpose_mul, Matrix.transpose_transpose,
        Matrix.transpose_nonsing_inv, Matrix.transpose_transpose]
    have hrow : P1⁻¹ 3 = ![0, 0, 0, 1] := by
      funext j
      have h := congrFun (congrFun (Matrix.mul_nonsing_inv P1 hdet) 3) j
      rw [Matrix.mul_apply, h1] at h
      simp only [Fin.sum_univ_four] at h
      fin_cases j <;>
        simpa [Matrix.one_apply] using h
    have hXrow : (P2 * P1⁻¹) 3 = ![0, 0, 0, 1] := by
      funext j
      have key : (P2 * P1⁻¹) 3 j = P1⁻¹ 3 j := by
        rw [Matrix.mul_apply, h2]
        simp [Fin.sum_univ_four, Matrix.vecHead, Matrix.vecTail]
      rw [key, hrow]
    rw [delta_P, hX, ← hXrow, Matrix.updateRow_eq_self, Matrix.mul_assoc,
      Matrix.nonsing_inv_mul _ hdet, Matrix.mul_one]

/-- Witness for the amended C1 at the identity pose. -/
theorem delta_P_amended_witness :
    IsUnit (1 : Mat4).det ∧ (1 : Mat4) 3 = ![0, 0, 0, 1] ∧
    delta_P 1 1 * 1 = 1 := by
  have hdet : IsUnit (1 : Mat4).det := by
    rw [Matrix.det_one]
    exact isUnit_one
  have hrow : (1 : Mat4) 3 = ![0, 0, 0, 1] := by
    funext j
    fin_cases j <;> simp [Matrix.one_apply]
  exact ⟨hdet, hrow, (delta_P_amended 1 1 hdet hrow hrow).2⟩

/-! ## C5: quaternion round-trip -/

/-- C5: for every axis-angle vector `r` with `0 < ‖r‖ < 2π` and
`sin(‖r‖/2) ≥ 1e-3`, the round-trip through `quat_from_rvec` and
`rvec_from_quat` returns exactly `r`. -/
theorem quat_roundtrip_exact (r : Vec3) (h0 : 0 < norm3 r)
    (h2 : norm3 r < 2 * Real.pi) (h3 : 0.001 ≤ Real.sin (norm3 r / 2)) :
    rvec_from_quat (quat_from_rvec r) = r := by
  obtain ⟨x, y, z⟩ := r
  have ha : (0 : ℝ) ≤ norm3 ⟨x, y, z⟩ / 2 := by positivity
  have hb : norm3 ⟨x, y, z⟩ / 2 ≤ Real.pi := by linarith
  have hsin0 : (0 : ℝ) < Real.sin (norm3 ⟨x, y, z⟩ / 2) :=
    lt_of_lt_of_le (by norm_num) h3
  have hane : norm3 ⟨x, y, z⟩ ≠ 0 := ne_of_gt h0
  have hq : quat_from_rvec ⟨x, y, z⟩ =
      ⟨x * Real.sin (norm3 ⟨x, y, z⟩ / 2) / norm3 ⟨x, y, z⟩,
       y * Real.sin (norm3 ⟨x, y, z⟩ / 2) / norm3 ⟨x, y, z⟩,
       z * Real.sin (norm3 ⟨x, y, z⟩ / 2) / norm3 ⟨x, y, z⟩,
       Real.cos (norm3 ⟨x, y, z⟩ / 2)⟩ := by
    simp only [quat_from_rvec, if_pos h0]
  rw [rvec_from_quat, rvec_from_quat_full, hq]
  simp only
  rw [if_neg (not_lt.mpr (Real.cos_le_one _))]
  have hs : Real.sqrt (1 - Real.cos (norm3 ⟨x, y, z⟩ / 2) ^ 2) =
      Real.sin (norm3 ⟨x, y, z⟩ / 2) := by
    rw [show (1 : ℝ) - Real.cos (norm3 ⟨x, y, z⟩ / 2) ^ 2 =
        Real.sin (norm3 ⟨x, y, z⟩ / 2) ^ 2 by rw [Real.sin_sq]]
    exact Real.sqrt_sq (le_of_lt hsin0)
  have hacos : Real.arccos (Real.cos (norm3 ⟨x, y, z⟩ / 2)) = norm3 ⟨x, y, z⟩ / 2 :=
    Real.arccos_cos ha hb
  rw [hs, if_neg (not_lt.mpr h3), hacos]
  simp only [Vec3.mk.injEq]
  refine ⟨?_, ?_, ?_⟩ <;>
    ( field_simp
      ring )

/-! ## C3: axis/angle decomposition -/

lemma np_sign_of_pos {x : ℝ} (h : 0 < x) : np_sign x = 1 := by
  unfold np_sign
  rw [if_neg (not_lt.mpr (le_of_lt h)), if_pos h]

lemma np_sign_of_neg {x : ℝ} (h : x < 0) : np_sign x = -1 := by
  unfold np_sign
  rw [if_pos h]

/-- Scaling a vector by a nonzero factor scales its dominant component. -/
lemma dominant_smul (t x y z : ℝ) (ht : t ≠ 0) :
    dominant ⟨t * x, t * y, t * z⟩ = t * dominant ⟨x, y, z⟩ := by
  have h : ∀ a b : ℝ, |t * a| ≤ |t * b| ↔ |a| ≤ |b| := by
    intro a b
    rw [abs_mul, abs_mul]
    constructor
    · intro hab
      exact le_of_mul_le_mul_left hab (abs_pos.mpr ht)
    · intro hab
      exact mul_le_mul_of_nonneg_left hab (abs_nonneg t)
  by_cases c1 : |y| ≤ |x| ∧ |z| ≤ |x|
  · rw [dominant, dominant]
    simp only
    rw [if_pos ⟨(h y x).mpr c1.1, (h z x).mpr c1.2⟩, if_pos c1]
  · by_cases c2 : |z| ≤ |y|
    · rw [dominant, dominant]
      simp only
      rw [if_neg fun hc => c1 ⟨(h y x).mp hc.1, (h z x).mp hc.2⟩, if_neg c1,
        if_pos ((h z y).mpr c2), if_pos c2]
    · rw [dominant, dominant]
      simp only
      rw [if_neg fun hc => c1 ⟨(h y x).mp hc.1, (h z x).mp hc.2⟩, if_neg c1,
        if_neg fun hc => c2 ((h z y).mp hc), if_neg c2]

/-- C3 as stated is false: the wrap by 2π is applied only once, so the vector
(10, 0, 0), whose norm 10 exceeds 3π, is nonzero yet gets the angle
10 − 2π > π, outside (−π, π]. -/
theorem axis_and_angle_range_counterexample :
    ((⟨10, 0, 0⟩ : Vec3) ≠ ⟨0, 0, 0⟩) ∧
    Real.pi < (axis_and_angle_from_rvec ⟨10, 0, 0⟩).2 := by
  have hpi : Real.pi < 3.15 := Real.pi_lt_d2
  have hn : norm3 ⟨10, 0, 0⟩ = 10 := by
    rw [norm3_mk, show (10 : ℝ) ^ 2 + 0 ^ 2 + 0 ^ 2 = 10 ^ 2 by norm_num]
    exact Real.sqrt_sq (by norm_num)
  have hd : dominant ⟨10, 0, 0⟩ = 10 := by
    unfold dominant
    norm_num
  have hs : np_sign (10 : ℝ) = 1 := np_sign_of_pos (by norm_num)
  have habs : |(10 : ℝ)| = 10 := abs_of_pos (by norm_num)
  constructor
  · simp [Vec3.mk.injEq]
  · simp only [axis_and_angle_from_rvec, hn, hd, hs, mul_one]
    rw [if_pos (by rw [habs]; linarith)]
    nlinarith

/-- C3 amended: the claimed decomposition holds for every nonzero `rvec`
whose norm is at most 3π and whose signed angle avoids the two boundary
values −π and −3π (a single 2π wrap cannot reach (−π, π] otherwise). -/
theorem axis_and_angle_spec (r : Vec3) (hr : r ≠ ⟨0, 0, 0⟩)
    (hn3 : norm3 r ≤ 3 * Real.pi)
    (hb1 : norm3 r * np_sign (dominant r) ≠ -Real.pi)
    (hb3 : norm3 r * np_sign (dominant r) ≠ -(3 * Real.pi)) :
    (-Real.pi < (axis_and_angle_from_rvec r).2 ∧
      (axis_and_angle_from_rvec r).2 ≤ Real.pi) ∧
    ((axis_and_angle_from_rvec r).1 = ⟨r.x / norm3 r, r.y / norm3 r, r.z / norm3 r⟩ ∨
      (axis_and_angle_from_rvec r).1 =
        ⟨-(r.x / norm3 r), -(r.y / norm3 r), -(r.z / norm3 r)⟩) ∧
    0 < dominant (axis_and_angle_from_rvec r).1 ∧
    norm3 (axis_and_angle_from_rvec r).1 = 1 := by
  have hpi : 0 < Real.pi := Real.pi_pos
  have hn : 0 < norm3 r := norm3_pos r hr
  have hdom : dominant r ≠ 0 := dominant_ne_zero r hr
  have hangle : (axis_and_angle_from_rvec r).2 =
      if Real.pi < |norm3 r * np_sign (dominant r)| then
        norm3 r * np_sign (dominant r) -
          np_sign (norm3 r * np_sign (dominant r)) * (2 * Real.pi)
      else norm3 r * np_sign (dominant r) := rfl
  have haxis : (axis_and_angle_from_rvec r).1 =
      ⟨np_sign (dominant r) * r.x / norm3 r,
        np_sign (dominant r) * r.y / norm3 r,
        np_sign (dominant r) * r.z / norm3 r⟩ := rfl
  refine ⟨?_, ?_, ?_, norm3_axis_eq_one r hr⟩
  · rcases np_sign_cases (dominant r) hdom with hσ | hσ <;> rw [hangle, hσ]
    · rw [mul_one, abs_of_pos hn]
      by_cases hc : Real.pi < norm3 r
      · rw [if_pos hc, np_sign_of_pos hn]
        constructor <;> nlinarith
      · rw [if_neg hc]
        push_neg at hc
        constructor <;> nlinarith
    · rw [hσ] at hb1 hb3
      rw [mul_neg, mul_one, abs_neg, abs_of_pos hn]
      by_cases hc : Real.pi < norm3 r
      · rw [if_pos hc, np_sign_of_neg (by linarith : -norm3 r < 0)]
        have hlt : norm3 r < 3 * Real.pi := lt_of_le_of_ne hn3 fun he => hb3 (by rw [he]; ring)
        constructor <;> nlinarith
      · rw [if_neg hc]
        push_neg at hc
        have hlt : norm3 r < Real.pi := lt_of_le_of_ne hc fun he => hb1 (by rw [he]; ring)
        constructor <;> nlinarith
  · rcases np_sign_cases (dominant r) hdom with hσ | hσ <;> rw [haxis, hσ]
    · left
      simp only [Vec3.mk.injEq]
      refine ⟨by ring, by ring, by ring⟩
    · right
      simp only [Vec3.mk.injEq]
      refine ⟨by ring, by ring, by ring⟩
  · have hfac : np_sign (dominant r) / norm3 r ≠ 0 := by
      rcases np_sign_cases (dominant r) hdom with hσ | hσ <;> rw [hσ] <;>
        exact div_ne_zero (by norm_num) (ne_of_gt hn)
    have hrw : (axis_and_angle_from_rvec r).1 =
        ⟨np_sign (dominant r) / norm3 r * r.x,
          np_sign (dominant r) / norm3 r * r.y,
          np_sign (dominant r) / norm3 r * r.z⟩ := by
      rw [haxis]
      simp only [Vec3.mk.injEq]
      refine ⟨by ring, by ring, by ring⟩
    rw [hrw, dominant_smul _ _ _ _ hfac]
    have hds : np_sign (dominant r) / norm3 r * dominant ⟨r.x, r.y, r.z⟩ =
        |dominant r| / norm3 r := by
      rw [div_mul_eq_mul_div]
      congr 1
      exact np_sign_mul_self (dominant r)
    rw [hds]
    exact div_pos (abs_pos.mpr hdom) hn

/-- Witness for the amended C3 at the concrete vector (1, 0, 0). -/
theorem axis_and_angle_spec_witness :
    -Real.pi < (axis_and_angle_from_rvec ⟨1, 0, 0⟩).2 ∧
    (axis_and_angle_from_rvec ⟨1, 0, 0⟩).2 ≤ Real.pi := by
  have hpi : 3 < Real.pi := Real.pi_gt_three
  have hn : norm3 ⟨1, 0, 0⟩ = 1 := by
    rw [norm3_mk]
    norm_num
  have hd : dominant ⟨1, 0, 0⟩ = 1 := by
    unfold dominant
    norm_num
  have hs : np_sign (1 : ℝ) = 1 := np_sign_of_pos (by norm_num)
  exact axis_and_angle_spec ⟨1, 0, 0⟩ (by simp [Vec3.mk.injEq])
    (by rw [hn]; linarith)
    (by rw [hn, hd, hs]; intro he; norm_num at he; linarith)
    (by rw [hn, hd, hs]; intro he; norm_num at he; linarith)
    |>.1

/-! ## C6: delta composition -/

/-- `quat_from_rvec` always returns a unit quaternion. -/
lemma sumSq_quat_from_rvec (r : Vec3) : sumSq (quat_from_rvec r) = 1 := by
  by_cases h : 0 < norm3 r
  · have ha : norm3 r ≠ 0 := ne_of_gt h
    have h2 : norm3 r ^ 2 = r.x ^ 2 + r.y ^ 2 + r.z ^ 2 := sq_norm3 r
    have hsc : Real.sin (norm3 r / 2) ^ 2 + Real.cos (norm3 r / 2) ^ 2 = 1 :=
      Real.sin_sq_add_cos_sq _
    simp only [quat_from_rvec, if_pos h, sumSq]
    field_simp
    linear_combination (r.x ^ 2 + r.y ^ 2 + r.z ^ 2) * hsc +
      (Real.cos (norm3 r / 2) ^ 2 - 1) * h2
  · simp only [quat_from_rvec, if_neg h, sumSq]
    norm_num

lemma sumSq_mult_quat (a b : Quat) : sumSq (mult_quat a b) = sumSq a * sumSq b := by
  obtain ⟨xa, ya, za, wa⟩ := a
  obtain ⟨xb, yb, zb, wb⟩ := b
  simp only [mult_quat, sumSq]
  ring

lemma inv_quat_unit {q : Quat} (h : sumSq q = 1) :
    inv_quat q = ⟨-q.x, -q.y, -q.z, q.w⟩ := by
  simp [inv_quat, h]

lemma sumSq_inv_quat_unit {q : Quat} (h : sumSq q = 1) :
    sumSq (inv_quat q) = 1 := by
  rw [inv_quat_unit h]
  simp only [sumSq] at h ⊢
  linear_combination h

/-- Multiplying the delta quaternion back onto a unit `q1` recovers `q2`. -/
lemma mult_delta_recover (q2 q1 : Quat) (h : sumSq q1 = 1) :
    mult_quat (mult_quat q2 (inv_quat q1)) q1 = q2 := by
  rw [inv_quat_unit h]
  obtain ⟨x2, y2, z2, w2⟩ := q2
  obtain ⟨x1, y1, z1, w1⟩ := q1
  simp only [sumSq] at h
  simp only [mult_quat, Quat.mk.injEq]
  refine ⟨?_, ?_, ?_, ?_⟩
  · linear_combination x2 * h
  · linear_combination y2 * h
  · linear_combination z2 * h
  · linear_combination w2 * h

/-- The quaternion → axis-angle → quaternion round-trip is exact on a unit
quaternion away from the near-zero-sine singular branch (and also on the two
singular unit quaternions with zero vector part). -/
lemma quat_rvec_roundtrip_unit (d : Quat) (hu : sumSq d = 1)
    (hcase : 0.001 ≤ Real.sqrt (1 - d.w ^ 2) ∨ (d.x = 0 ∧ d.y = 0 ∧ d.z = 0)) :
    quat_from_rvec (rvec_from_quat d) = d := by
  have hsum : d.x ^ 2 + d.y ^ 2 + d.z ^ 2 + d.w ^ 2 = 1 := hu
  have hw2 : d.w ^ 2 ≤ 1 := by
    nlinarith [sq_nonneg d.x, sq_nonneg d.y, sq_nonneg d.z]
  have hw1 : d.w ≤ 1 := by nlinarith
  have hwm1 : -1 ≤ d.w := by nlinarith
  have hnotW : ¬ (1 < d.w) := not_lt.mpr hw1
  have h1w2 : (0 : ℝ) ≤ 1 - d.w ^ 2 := by linarith
  have hfull : rvec_from_quat d =
      (let angle := 2 * Real.arccos d.w
        let s := Real.sqrt (1 - d.w ^ 2)
        let rvec : Vec3 := if s < 0.001 then ⟨1, 0, 0⟩ else ⟨d.x / s, d.y / s, d.z / s⟩
        (⟨rvec.x * angle, rvec.y * angle, rvec.z * angle⟩ : Vec3)) := by
    simp only [rvec_from_quat, rvec_from_quat_full, hnotW, if_false]
  rcases hcase with hs | ⟨hx, hy, hz⟩
  · -- regular branch: the axis is preserved exactly
    have hsvec : Real.sqrt (1 - d.w ^ 2) ^ 2 = 1 - d.w ^ 2 := Real.sq_sqrt h1w2
    have hspos : (0 : ℝ) < Real.sqrt (1 - d.w ^ 2) := lt_of_lt_of_le (by norm_num) hs
    have hw2lt : d.w ^ 2 < 1 := by nlinarith
    have hwlt : d.w < 1 := by nlinarith
    have harcpos : 0 < Real.arccos d.w := Real.arccos_pos.mpr hwlt
    have hsin : Real.sin (Real.arccos d.w) = Real.sqrt (1 - d.w ^ 2) :=
      Real.sin_arccos d.w
    have hcos : Real.cos (Real.arccos d.w) = d.w := Real.cos_arccos hwm1 hw1
    rw [hfull]
    simp only
    rw [if_neg (not_lt.mpr hs)]
    have hnrm : norm3 ⟨d.x / Real.sqrt (1 - d.w ^ 2) * (2 * Real.arccos d.w),
        d.y / Real.sqrt (1 - d.w ^ 2) * (2 * Real.arccos d.w),
        d.z / Real.sqrt (1 - d.w ^ 2) * (2 * Real.arccos d.w)⟩ =
        2 * Real.arccos d.w := by
      rw [norm3_mk]
      have hxyz : d.x ^ 2 + d.y ^ 2 + d.z ^ 2 = 1 - d.w ^ 2 := by linarith
      have hne : (1 : ℝ) - d.w ^ 2 ≠ 0 := ne_of_gt (by nlinarith)
      rw [show (d.x / Real.sqrt (1 - d.w ^ 2) * (2 * Real.arccos d.w)) ^ 2 +
          (d.y / Real.sqrt (1 - d.w ^ 2) * (2 * Real.arccos d.w)) ^ 2 +
          (d.z / Real.sqrt (1 - d.w ^ 2) * (2 * Real.arccos d.w)) ^ 2 =
          (d.x ^ 2 + d.y ^ 2 + d.z ^ 2) / Real.sqrt (1 - d.w ^ 2) ^ 2 *
            (2 * Real.arccos d.w) ^ 2 by ring]
      rw [hxyz, hsvec, div_self hne, one_mul]
      exact Real.sqrt_sq (by positivity)
    simp only [quat_from_rvec, hnrm]
    rw [if_pos (by positivity)]
    rw [show 2 * Real.arccos d.w / 2 = Real.arccos d.w by ring, hsin, hcos]
    have hsne : Real.sqrt (1 - d.w ^ 2) ≠ 0 := ne_of_gt hspos
    have hane : (2 : ℝ) * Real.arccos d.w ≠ 0 := by positivity
    obtain ⟨dx, dy, dz, dw⟩ := d
    simp only [Quat.mk.injEq]
    refine ⟨?_, ?_, ?_, trivial⟩ <;>
      ( field_simp
        try ring )
  · -- singular branch: zero vector part, w = 1 or w = -1
    have hw : d.w = 1 ∨ d.w = -1 := by
      have hxyz0 : d.x ^ 2 + d.y ^ 2 + d.z ^ 2 = 0 := by
        rw [hx, hy, hz]
        ring
      have hfac : (d.w - 1) * (d.w + 1) = 0 := by
        linear_combination hsum - hxyz0
      rcases mul_eq_zero.mp hfac with h | h
      · left; linarith
      · right; linarith
    have hs0 : Real.sqrt (1 - d.w ^ 2) = 0 := by
      rcases hw with h | h <;> rw [h] <;> norm_num
    rw [hfull]
    simp only
    rw [hs0, if_pos (by norm_num)]
    rcases hw with h | h
    · rw [h, Real.arccos_one]
      have hz3 : norm3 ⟨1 * (2 * 0), 0 * (2 * 0), 0 * (2 * 0)⟩ = 0 := by
        rw [norm3_mk]
        norm_num
      simp only [quat_from_rvec, hz3]
      rw [if_neg (by norm_num)]
      obtain ⟨dx, dy, dz, dw⟩ := d
      simp only at hx hy hz h
      simp [hx, hy, hz, h]
    · rw [h, Real.arccos_neg_one]
      have hpi : (0 : ℝ) < 2 * Real.pi := by positivity
      have hn2pi : norm3 ⟨1 * (2 * Real.pi), 0 * (2 * Real.pi), 0 * (2 * Real.pi)⟩ =
          2 * Real.pi := by
        rw [norm3_mk]
        rw [show (1 * (2 * Real.pi)) ^ 2 + (0 * (2 * Real.pi)) ^ 2 +
            (0 * (2 * Real.pi)) ^ 2 = (2 * Real.pi) ^ 2 by ring]
        exact Real.sqrt_sq (le_of_lt hpi)
      simp only [quat_from_rvec, hn2pi]
      rw [if_pos hpi]
      rw [show 2 * Real.pi / 2 = Real.pi by ring, Real.sin_pi, Real.cos_pi]
      obtain ⟨dx, dy, dz, dw⟩ := d
      simp only at hx hy hz h
      simp [hx, hy, hz, h]

/-- C6 amended: composing `delta_rvec(r2, r1)` back onto `r1` reproduces the
quaternion of `r2` exactly (with positive sign) whenever the delta quaternion
avoids the near-zero-sine singular branch of `rvec_from_quat`, i.e. when
`sqrt(1 − w²) ≥ 1e-3` or its vector part is exactly zero. -/
theorem delta_rvec_compose (r1 r2 : Vec3)
    (hreg : 0.001 ≤ Real.sqrt
        (1 - (delta_quat (quat_from_rvec r2) (quat_from_rvec r1)).w ^ 2) ∨
      ((delta_quat (quat_from_rvec r2) (quat_from_rvec r1)).x = 0 ∧
        (delta_quat (quat_from_rvec r2) (quat_from_rvec r1)).y = 0 ∧
        (delta_quat (quat_from_rvec r2) (quat_from_rvec r1)).z = 0)) :
    mult_quat (quat_from_rvec (delta_rvec r2 r1)) (quat_from_rvec r1) =
      quat_from_rvec r2 := by
  have h1 := sumSq_quat_from_rvec r1
  have h2 := sumSq_quat_from_rvec r2
  have hd : sumSq (delta_quat (quat_from_rvec r2) (quat_from_rvec r1)) = 1 := by
    rw [delta_quat, sumSq_mult_quat, h2, sumSq_inv_quat_unit h1, one_mul]
  rw [delta_rvec, quat_rvec_roundtrip_unit _ hd hreg, delta_quat]
  exact mult_delta_recover _ _ h1

/-- C6 as stated is false: with `r1 = (0,0,0)` and `r2 = (0,0,1/1000)`, the
delta quaternion falls into the `s < 0.001` singular branch of
`rvec_from_quat`, which replaces the rotation axis z by the fixed axis
(1,0,0); the recomposed quaternion is a rotation about x, equal to neither
`quat_from_rvec r2` nor its negation. -/
theorem delta_rvec_compose_counterexample :
    ¬ (mult_quat (quat_from_rvec (delta_rvec ⟨0, 0, 1 / 1000⟩ ⟨0, 0, 0⟩))
        (quat_from_rvec ⟨0, 0, 0⟩) = quat_from_rvec ⟨0, 0, 1 / 1000⟩ ∨
      mult_quat (quat_from_rvec (delta_rvec ⟨0, 0, 1 / 1000⟩ ⟨0, 0, 0⟩))
        (quat_from_rvec ⟨0, 0, 0⟩) = qneg (quat_from_rvec ⟨0, 0, 1 / 1000⟩)) := by
  have hpi3 : 3 < Real.pi := Real.pi_gt_three
  have h0 : norm3 ⟨0, 0, 0⟩ = 0 := by
    rw [norm3_mk]
    norm_num
  have hq1 : quat_from_rvec ⟨0, 0, 0⟩ = ⟨0, 0, 0, 1⟩ := by
    simp [quat_from_rvec, h0]
  have hinv : inv_quat (⟨0, 0, 0, 1⟩ : Quat) = ⟨0, 0, 0, 1⟩ := by
    simp [inv_quat, sumSq]
  have hn2 : norm3 ⟨0, 0, 1 / 1000⟩ = 1 / 1000 := by
    rw [norm3_mk, show (0 : ℝ) ^ 2 + 0 ^ 2 + (1 / 1000) ^ 2 = (1 / 1000) ^ 2 by norm_num]
    exact Real.sqrt_sq (by norm_num)
  have hq2 : quat_from_rvec ⟨0, 0, 1 / 1000⟩ =
      ⟨0, 0, Real.sin (1 / 1000 / 2), Real.cos (1 / 1000 / 2)⟩ := by
    simp only [quat_from_rvec, hn2]
    rw [if_pos (by norm_num)]
    simp only [Quat.mk.injEq]
    norm_num
  have hsin_pos : 0 < Real.sin (1 / 1000 / 2) :=
    Real.sin_pos_of_pos_of_lt_pi (by norm_num) (by nlinarith)
  have hsin_lt : Real.sin (1 / 1000 / 2) < 0.001 :=
    lt_trans (Real.sin_lt (by norm_num)) (by norm_num)
  have hd : delta_quat (quat_from_rvec ⟨0, 0, 1 / 1000⟩) (quat_from_rvec ⟨0, 0, 0⟩) =
      ⟨0, 0, Real.sin (1 / 1000 / 2), Real.cos (1 / 1000 / 2)⟩ := by
    rw [delta_quat, hq1, hinv, hq2]
    simp only [mult_quat, Quat.mk.injEq]
    norm_num
  have hs_eq : Real.sqrt (1 - Real.cos (1 / 1000 / 2) ^ 2) = Real.sin (1 / 1000 / 2) := by
    rw [show (1 : ℝ) - Real.cos (1 / 1000 / 2) ^ 2 = Real.sin (1 / 1000 / 2) ^ 2 by
      rw [Real.sin_sq]]
    exact Real.sqrt_sq (le_of_lt hsin_pos)
  have harc : Real.arccos (Real.cos (1 / 1000 / 2)) = 1 / 1000 / 2 :=
    Real.arccos_cos (by norm_num) (by nlinarith)
  have hrv : rvec_from_quat ⟨0, 0, Real.sin (1 / 1000 / 2), Real.cos (1 / 1000 / 2)⟩ =
      ⟨1 / 1000, 0, 0⟩ := by
    have hw_le : ¬ (1 < Real.cos (1 / 1000 / 2)) := not_lt.mpr (Real.cos_le_one _)
    simp only [rvec_from_quat, rvec_from_quat_full, hw_le, if_false]
    rw [hs_eq, if_pos hsin_lt, harc]
    simp only [Vec3.mk.injEq]
    norm_num
  have hdeltarv : delta_rvec ⟨0, 0, 1 / 1000⟩ ⟨0, 0, 0⟩ = ⟨1 / 1000, 0, 0⟩ := by
    rw [delta_rvec, hd, hrv]
  have hn3 : norm3 ⟨1 / 1000, 0, 0⟩ = 1 / 1000 := by
    rw [norm3_mk, show (1 / 1000 : ℝ) ^ 2 + 0 ^ 2 + 0 ^ 2 = (1 / 1000) ^ 2 by norm_num]
    exact Real.sqrt_sq (by norm_num)
  have hq3 : quat_from_rvec ⟨1 / 1000, 0, 0⟩ =
      ⟨Real.sin (1 / 1000 / 2), 0, 0, Real.cos (1 / 1000 / 2)⟩ := by
    simp only [quat_from_rvec, hn3]
    rw [if_pos (by norm_num)]
    simp only [Quat.mk.injEq]
    norm_num
  have hL : mult_quat (quat_from_rvec (delta_rvec ⟨0, 0, 1 / 1000⟩ ⟨0, 0, 0⟩))
      (quat_from_rvec ⟨0, 0, 0⟩) =
      ⟨Real.sin (1 / 1000 / 2), 0, 0, Real.cos (1 / 1000 / 2)⟩ := by
    rw [hdeltarv, hq3, hq1]
    simp only [mult_quat, Quat.mk.injEq]
    norm_num
  rw [hL, hq2]
  rintro (h | h)
  · rw [Quat.mk.injEq] at h
    exact absurd h.1 (ne_of_gt hsin_pos)
  · rw [qneg, Quat.mk.injEq] at h
    simp only at h
    exact absurd h.1 (by simpa using ne_of_gt hsin_pos)

/-- Witness for the amended C6 at `r1 = r2 = (0, 0, 0)`. -/
theorem delta_rvec_compose_witness :
    mult_quat (quat_from_rvec (delta_rvec ⟨0, 0, 0⟩ ⟨0, 0, 0⟩))
      (quat_from_rvec ⟨0, 0, 0⟩) = quat_from_rvec ⟨0, 0, 0⟩ := by
  have h0 : norm3 ⟨0, 0, 0⟩ = 0 := by
    rw [norm3_mk]
    norm_num
  have hq1 : quat_from_rvec ⟨0, 0, 0⟩ = ⟨0, 0, 0, 1⟩ := by
    simp [quat_from_rvec, h0]
  have hinv : inv_quat (⟨0, 0, 0, 1⟩ : Quat) = ⟨0, 0, 0, 1⟩ := by
    simp [inv_quat, sumSq]
  have hd : delta_quat (quat_from_rvec ⟨0, 0, 0⟩) (quat_from_rvec ⟨0, 0, 0⟩) =
      ⟨0, 0, 0, 1⟩ := by
    rw [delta_quat, hq1, hinv]
    simp [mult_quat]
  exact delta_rvec_compose ⟨0, 0, 0⟩ ⟨0, 0, 0⟩
    (Or.inr ⟨by rw [hd], by rw [hd], by rw [hd]⟩)

/-- Witness for C5 at the concrete vector (1, 0, 0). -/
theorem quat_roundtrip_exact_witness :
    rvec_from_quat (quat_from_rvec ⟨1, 0, 0⟩) = ⟨1, 0, 0⟩ := by
  have hn : norm3 ⟨1, 0, 0⟩ = 1 := by
    rw [norm3_mk]
    norm_num
  apply quat_roundtrip_exact
  · rw [hn]; norm_num
  · rw [hn]; nlinarith [Real.pi_gt_three]
  · rw [hn]
    nlinarith [Real.sin_gt_sub_cube (show (0:ℝ) < 1 / 2 by norm_num)
      (show (1:ℝ) / 2 ≤ 1 by norm_num)]

end
